import Mathlib

/-!
# Verification of the spectral-discretization kernel

A shallow embedding of `src/NumericalAlgorithms/Spectral/Spectral.cpp` over
exact rational arithmetic.  The primitive generator
`compute_collocation_points_and_weights` and the basis-specific functions
`compute_basis_function_value` / `compute_basis_function_normalization_square`
are implemented outside the excerpted translation unit (only forward
declarations appear there), so the derived generators below are parameterized
over the collocation nodes `x` and quadrature weights `w`, and the Legendre
basis functions are modelled from the spec.  All floating-point arithmetic of
the source is idealized as exact field arithmetic in ℚ, so "to numeric
tolerance" statements become exact identities.
-/

namespace Spectral

/-- The closed set of basis families (`enum class Basis`): one classical
orthogonal-polynomial family. -/
inductive Basis
  | Legendre
  deriving DecidableEq, Repr

/-- The closed set of quadrature rules (`enum class Quadrature`): Gauss
(nodes exclude the endpoints) and Gauss-Lobatto (nodes include both
endpoints). -/
inductive Quadrature
  | Gauss
  | GaussLobatto
  deriving DecidableEq, Repr

/-- Modelled from the spec: `compute_basis_function_value<Basis::Legendre>` is
implemented outside the excerpted translation unit.  The spec identifies the
basis as a classical orthogonal-polynomial family on the reference interval
[-1,1]; these are the Legendre polynomials, here computed by the standard
three-term recurrence in exact rational arithmetic. -/
def compute_basis_function_value : ℕ → ℚ → ℚ
  | 0, _ => 1
  | 1, x => x
  | k + 2, x =>
      ((2 * (k : ℚ) + 3) * x * compute_basis_function_value (k + 1) x
          - ((k : ℚ) + 1) * compute_basis_function_value k x) / ((k : ℚ) + 2)

/-- Modelled from the spec: `compute_basis_function_normalization_square` is
implemented outside the excerpted translation unit.  It is the definite
integral of the square of the k-th basis function; for the Legendre family
this is 2/(2k+1). -/
def compute_basis_function_normalization_square (k : ℕ) : ℚ :=
  2 / (2 * (k : ℚ) + 1)

/-- `SpectralToGridPointsMatrixGenerator`: the Vandermonde matrix, entry
(i,j) is the basis function j evaluated at the collocation point i. -/
def spectral_to_grid_points_matrix (n : ℕ) (x : Fin n → ℚ) :
    Matrix (Fin n) (Fin n) ℚ :=
  Matrix.of fun i j => compute_basis_function_value (j : ℕ) (x i)

/-- Modelled from the spec: `blaze::invert`, the dense linear-algebra
collaborator's numeric matrix inversion, idealized as exact inversion over ℚ
via the adjugate: `invert M = det(M)⁻¹ • adjugate(M)`. -/
def invert {n : ℕ} (M : Matrix (Fin n) (Fin n) ℚ) : Matrix (Fin n) (Fin n) ℚ :=
  (M.det)⁻¹ • M.adjugate

/-- `GridPointsToSpectralMatrixGenerator`: the inverse of the Vandermonde
matrix.  The template specialization for `Quadrature::Gauss` uses the analytic
expression `V⁻¹(i,j) = V(j,i) * w(j) / γ(i)`; the generic definition (used by
Gauss-Lobatto) numerically inverts the Vandermonde matrix. -/
def grid_points_to_spectral_matrix (q : Quadrature) (n : ℕ)
    (x w : Fin n → ℚ) : Matrix (Fin n) (Fin n) ℚ :=
  match q with
  | .Gauss =>
      Matrix.of fun i j =>
        spectral_to_grid_points_matrix n x j i * w j /
          compute_basis_function_normalization_square (i : ℕ)
  | .GaussLobatto => invert (spectral_to_grid_points_matrix n x)

/-- Discrete orthogonality of the basis functions under the quadrature:
`Σ_j w(j) Φ_i(x_j) Φ_k(x_j) = γ_i δ_ik`.  The spec derives the Gauss analytic
inverse from exactly this property ("orthogonality of the basis under that
quadrature's weight function"). -/
def discrete_orthogonality (n : ℕ) (x w : Fin n → ℚ) : Prop :=
  ∀ i k : Fin n,
    ∑ j, w j * (compute_basis_function_value (i : ℕ) (x j) *
        compute_basis_function_value (k : ℕ) (x j)) =
      if i = k then compute_basis_function_normalization_square (i : ℕ) else 0

/-- The property of the primitive collocation data that makes the selected
`grid_points_to_spectral_matrix` code path an exact inverse: discrete
orthogonality for the analytic Gauss path, an invertible Vandermonde matrix
for the generic numeric-inversion path. -/
def transform_inverse_hypothesis (q : Quadrature) (n : ℕ)
    (x w : Fin n → ℚ) : Prop :=
  match q with
  | .Gauss => discrete_orthogonality n x w
  | .GaussLobatto => (spectral_to_grid_points_matrix n x).det ≠ 0

/-- One iteration of the inner loop of `BarycentricWeightsGenerator`
(algorithm 30 of Kopriva's book): at inner index k of column j the source
updates `bary_weights[k] *= x[k] - x[j]` and `bary_weights[j] *= x[j] - x[k]`. -/
def baryInnerStep (n : ℕ) (x : Fin n → ℚ) (j k : Fin n)
    (w : Fin n → ℚ) : Fin n → ℚ :=
  fun i => if i = k then w i * (x k - x j)
    else if i = j then w i * (x j - x k) else w i

/-- The inner loop of `BarycentricWeightsGenerator`: `for k in [0, t)`. -/
def baryInnerLoop (n : ℕ) (x : Fin n → ℚ) (j : Fin n) :
    ℕ → (Fin n → ℚ) → (Fin n → ℚ)
  | 0, w => w
  | t + 1, w =>
      if h : t < n then baryInnerStep n x j ⟨t, h⟩ (baryInnerLoop n x j t w)
      else baryInnerLoop n x j t w

/-- The outer loop of `BarycentricWeightsGenerator`: `for j in [1, t]`,
running the inner loop over `k in [0, j)` for each column j. -/
def baryOuterLoop (n : ℕ) (x : Fin n → ℚ) :
    ℕ → (Fin n → ℚ) → (Fin n → ℚ)
  | 0, w => w
  | t + 1, w =>
      if h : t + 1 < n then
        baryInnerLoop n x ⟨t + 1, h⟩ (t + 1) (baryOuterLoop n x t w)
      else baryOuterLoop n x t w

/-- `BarycentricWeightsGenerator`: starting from all ones, run the incremental
pairwise-difference product loops over columns 1..n-1, then take the
reciprocal of every entry. -/
def barycentric_weights {n : ℕ} (x : Fin n → ℚ) : Fin n → ℚ :=
  fun j => (baryOuterLoop n x (n - 1) (fun _ => 1) j)⁻¹

/-- `DifferentiationMatrixGenerator` (algorithm 37 of Kopriva's book):
off-diagonal entry (i,j) is `bary[j] / (bary[i] * (x_i - x_j))`; the diagonal
entry accumulates the negative sum of the row's off-diagonal entries. -/
def differentiation_matrix (n : ℕ) (x : Fin n → ℚ) :
    Matrix (Fin n) (Fin n) ℚ :=
  Matrix.of fun i j =>
    if i = j then
      -∑ k ∈ Finset.univ.erase i,
        barycentric_weights x k / (barycentric_weights x i * (x i - x k))
    else barycentric_weights x j / (barycentric_weights x i * (x i - x j))

/-- `LinearFilterMatrixGenerator`: the `dgemm_` call with inner dimension
`min(2, num_points)` multiplies the first `min(2,N)` columns of
`spectral_to_grid_points_matrix` with the first `min(2,N)` rows of
`grid_points_to_spectral_matrix`. -/
def linear_filter_matrix (q : Quadrature) (n : ℕ) (x w : Fin n → ℚ) :
    Matrix (Fin n) (Fin n) ℚ :=
  Matrix.of fun i j =>
    ∑ l : Fin (min 2 n),
      spectral_to_grid_points_matrix n x i (Fin.castLE (min_le_right 2 n) l) *
        grid_points_to_spectral_matrix q n x w
          (Fin.castLE (min_le_right 2 n) l) j

/-- `equal_within_roundoff`: the round-off-tolerance comparison of the
source, idealized as exact equality in exact rational arithmetic. -/
abbrev equal_within_roundoff (a b : ℚ) : Prop := a = b

/-- `interpolation_matrix` (algorithm 32 of Kopriva's book): for each target
point k, if it matches a collocation point within round-off the row gets 1 at
every matching column and 0 elsewhere; otherwise the row holds the
barycentric weights `bary[j] / (target_k - x_j)` normalized by their sum. -/
def interpolation_matrix (n m : ℕ) (x : Fin n → ℚ) (t : Fin m → ℚ) :
    Matrix (Fin m) (Fin n) ℚ :=
  Matrix.of fun k j =>
    if ∃ jm : Fin n, equal_within_roundoff (t k) (x jm) then
      if equal_within_roundoff (t k) (x j) then 1 else 0
    else
      (barycentric_weights x j / (t k - x j)) /
        ∑ js, barycentric_weights x js / (t k - x js)

/-- Modelled from the spec: `minimum_number_of_points<Basis, Quadrature>` is
declared in the header, outside the excerpted translation unit.  The spec
states that the endpoint-inclusive rule (Gauss-Lobatto) requires at least 2
points while the Gauss minimum admits N = 1. -/
def minimum_number_of_points : Quadrature → ℕ
  | .Gauss => 1
  | .GaussLobatto => 2

/-- The error taxonomy of the kernel relevant to the range check
(`RangeError` in the spec's terms, raised by the `ASSERT`s of
`precomputed_spectral_quantity`). -/
inductive SpectralError
  | RangeError
  deriving DecidableEq, Repr

/-- The memoizing cache state for one (Basis, Quadrature, GeneratorKind):
either not yet populated, or a table holding the value for every point
count (the source populates the whole `StaticCache` on first access). -/
structure SpectralCache (A : Type) where
  table : Option (ℕ → A)

/-- A cache is well-formed for a generator when any table it holds agrees
with the generator everywhere (entries are pure functions of the key). -/
def cache_well_formed {A : Type} (gen : ℕ → A) (c : SpectralCache A) : Prop :=
  ∀ tbl, c.table = some tbl → ∀ m, tbl m = gen m

/-- `precomputed_spectral_quantity`: check the requested point count against
the (basis, quadrature)-specific minimum and the shared maximum before any
computation; on failure report a RangeError and leave the cache untouched;
otherwise serve the value from the cache, populating the whole table on
first access. -/
def precomputed_spectral_quantity {A : Type} (min_points max_points : ℕ)
    (gen : ℕ → A) (c : SpectralCache A) (n : ℕ) :
    Except SpectralError A × SpectralCache A :=
  if n < min_points ∨ max_points < n then (.error .RangeError, c)
  else
    match c.table with
    | some tbl => (.ok (tbl n), c)
    | none => (.ok (gen n), ⟨some fun m => gen m⟩)

/-- The Mesh descriptor: the kernel reads exactly the runtime basis,
quadrature and extent (one dimension). -/
structure Mesh where
  basis : Basis
  quadrature : Quadrature
  extent : ℕ

/-- `get_spectral_quantity_for_mesh`: switch on the runtime basis and
quadrature tags to select the corresponding variant, invoked with the mesh's
extent as the point count. -/
def get_spectral_quantity_for_mesh {A : ℕ → Sort _}
    (f : Basis → Quadrature → (np : ℕ) → A np) (mesh : Mesh) :
    A mesh.extent :=
  match mesh.basis, mesh.quadrature with
  | .Legendre, .Gauss => f .Legendre .Gauss mesh.extent
  | .Legendre, .GaussLobatto => f .Legendre .GaussLobatto mesh.extent

/-- Modelled from the spec: a provider of the primitive generator
`compute_collocation_points_and_weights` (implemented outside the excerpted
translation unit), giving the collocation points and quadrature weights for
each quadrature and point count. -/
def CollocationProvider : Type :=
  Quadrature → (np : ℕ) → ((Fin np → ℚ) × (Fin np → ℚ))

/-- Mesh-level overload of `collocation_points`. -/
def collocation_points_for_mesh (cpw : CollocationProvider) (mesh : Mesh) :
    Fin mesh.extent → ℚ :=
  get_spectral_quantity_for_mesh (fun _b q np => (cpw q np).1) mesh

/-- Mesh-level overload of `quadrature_weights`. -/
def quadrature_weights_for_mesh (cpw : CollocationProvider) (mesh : Mesh) :
    Fin mesh.extent → ℚ :=
  get_spectral_quantity_for_mesh (fun _b q np => (cpw q np).2) mesh

/-- Mesh-level overload of `differentiation_matrix`. -/
def differentiation_matrix_for_mesh (cpw : CollocationProvider)
    (mesh : Mesh) : Matrix (Fin mesh.extent) (Fin mesh.extent) ℚ :=
  get_spectral_quantity_for_mesh
    (fun _b q np => differentiation_matrix np (cpw q np).1) mesh

/-- Mesh-level overload of `spectral_to_grid_points_matrix`. -/
def spectral_to_grid_points_matrix_for_mesh (cpw : CollocationProvider)
    (mesh : Mesh) : Matrix (Fin mesh.extent) (Fin mesh.extent) ℚ :=
  get_spectral_quantity_for_mesh
    (fun _b q np => spectral_to_grid_points_matrix np (cpw q np).1) mesh

/-- Mesh-level overload of `grid_points_to_spectral_matrix`. -/
def grid_points_to_spectral_matrix_for_mesh (cpw : CollocationProvider)
    (mesh : Mesh) : Matrix (Fin mesh.extent) (Fin mesh.extent) ℚ :=
  get_spectral_quantity_for_mesh
    (fun _b q np =>
      grid_points_to_spectral_matrix q np (cpw q np).1 (cpw q np).2) mesh

/-- Mesh-level overload of `linear_filter_matrix`. -/
def linear_filter_matrix_for_mesh (cpw : CollocationProvider)
    (mesh : Mesh) : Matrix (Fin mesh.extent) (Fin mesh.extent) ℚ :=
  get_spectral_quantity_for_mesh
    (fun _b q np => linear_filter_matrix q np (cpw q np).1 (cpw q np).2) mesh

/-- Mesh-level overload of `interpolation_matrix`. -/
def interpolation_matrix_for_mesh (cpw : CollocationProvider) (mesh : Mesh)
    {m : ℕ} (t : Fin m → ℚ) : Matrix (Fin m) (Fin mesh.extent) ℚ :=
  get_spectral_quantity_for_mesh
    (fun _b q np => interpolation_matrix np m (cpw q np).1 t) mesh

/-! ## Helper lemmas for the transform matrices -/

theorem normalization_square_ne_zero (k : ℕ) :
    compute_basis_function_normalization_square k ≠ 0 := by
  unfold compute_basis_function_normalization_square
  positivity

theorem invert_mul {n : ℕ} (M : Matrix (Fin n) (Fin n) ℚ) (h : M.det ≠ 0) :
    invert M * M = 1 := by
  unfold invert
  rw [Matrix.smul_mul, Matrix.adjugate_mul, smul_smul, inv_mul_cancel₀ h,
    one_smul]

theorem mul_invert {n : ℕ} (M : Matrix (Fin n) (Fin n) ℚ) (h : M.det ≠ 0) :
    M * invert M = 1 := by
  unfold invert
  rw [Matrix.mul_smul, Matrix.mul_adjugate, smul_smul, inv_mul_cancel₀ h,
    one_smul]

theorem gauss_mul_vandermonde (n : ℕ) (x w : Fin n → ℚ)
    (horth : discrete_orthogonality n x w) :
    grid_points_to_spectral_matrix .Gauss n x w *
      spectral_to_grid_points_matrix n x = 1 := by
  ext i k
  rw [Matrix.mul_apply]
  have hterm : ∀ j : Fin n,
      grid_points_to_spectral_matrix .Gauss n x w i j *
        spectral_to_grid_points_matrix n x j k =
      w j * (compute_basis_function_value (i : ℕ) (x j) *
        compute_basis_function_value (k : ℕ) (x j)) /
          compute_basis_function_normalization_square (i : ℕ) := by
    intro j
    simp only [grid_points_to_spectral_matrix, spectral_to_grid_points_matrix,
      Matrix.of_apply]
    ring
  rw [Finset.sum_congr rfl fun j _ => hterm j, ← Finset.sum_div, horth i k]
  by_cases hik : i = k
  · simp [hik, div_self (normalization_square_ne_zero (k : ℕ)),
      Matrix.one_apply]
  · simp [hik, Matrix.one_apply]

/-! ## C1: the two transform matrices are mutually inverse -/

/-- C1: For every point count N and both quadratures (Gauss and GaussLobatto),
the product `grid_points_to_spectral_matrix(N) · spectral_to_grid_points_matrix(N)`
equals the N×N identity matrix, given that the collocation data satisfies the
property the selected code path relies on (discrete orthogonality for the
analytic Gauss path, a nonsingular Vandermonde matrix for the generic
numeric-inversion path); in exact arithmetic "to numeric tolerance" is
exact equality. -/
theorem grid_to_spectral_mul_spectral_to_grid_eq_one (q : Quadrature)
    (n : ℕ) (x w : Fin n → ℚ) (h : transform_inverse_hypothesis q n x w) :
    grid_points_to_spectral_matrix q n x w *
      spectral_to_grid_points_matrix n x = 1 := by
  cases q with
  | Gauss => exact gauss_mul_vandermonde n x w h
  | GaussLobatto => exact invert_mul _ h

/-- Witness for C1 at concrete inputs: the one-point Gauss rule (node 0,
weight 2) and the two-point Gauss-Lobatto rule (nodes ±1). -/
theorem grid_to_spectral_mul_spectral_to_grid_eq_one_witness :
    (transform_inverse_hypothesis .Gauss 1 ![0] ![2] ∧
      grid_points_to_spectral_matrix .Gauss 1 ![0] ![2] *
        spectral_to_grid_points_matrix 1 ![0] = 1) ∧
    (transform_inverse_hypothesis .GaussLobatto 2 ![-1, 1] ![1, 1] ∧
      grid_points_to_spectral_matrix .GaussLobatto 2 ![-1, 1] ![1, 1] *
        spectral_to_grid_points_matrix 2 ![-1, 1] = 1) := by
  have h1 : transform_inverse_hypothesis .Gauss 1 ![0] ![2] := by
    intro i k
    fin_cases i <;> fin_cases k <;>
      simp [compute_basis_function_value,
        compute_basis_function_normalization_square]
  have h2 : transform_inverse_hypothesis .GaussLobatto 2 ![-1, 1] ![1, 1] := by
    show (spectral_to_grid_points_matrix 2 ![-1, 1]).det ≠ 0
    rw [Matrix.det_fin_two]
    simp [spectral_to_grid_points_matrix, compute_basis_function_value]
  exact ⟨⟨h1, grid_to_spectral_mul_spectral_to_grid_eq_one .Gauss 1 ![0] ![2] h1⟩,
    ⟨h2, grid_to_spectral_mul_spectral_to_grid_eq_one .GaussLobatto 2
      ![-1, 1] ![1, 1] h2⟩⟩

/-! ## C2: the Gauss analytic path matches the generic inversion path -/

/-- C2: For the Gauss quadrature, entry (i,j) of
`grid_points_to_spectral_matrix` equals `Vandermonde(j,i) × weight(j) /
normalization(i)`, and this analytic result coincides with the matrix the
generic code path produces by inverting the Vandermonde matrix (exactly, in
exact arithmetic), given discrete orthogonality and a nonsingular Vandermonde
matrix. -/
theorem gauss_analytic_inverse_matches_generic (n : ℕ) (x w : Fin n → ℚ)
    (horth : discrete_orthogonality n x w)
    (hdet : (spectral_to_grid_points_matrix n x).det ≠ 0) :
    (∀ i j, grid_points_to_spectral_matrix .Gauss n x w i j =
        spectral_to_grid_points_matrix n x j i * w j /
          compute_basis_function_normalization_square (i : ℕ)) ∧
      grid_points_to_spectral_matrix .Gauss n x w =
        invert (spectral_to_grid_points_matrix n x) := by
  refine ⟨fun i j => rfl, ?_⟩
  have hA := gauss_mul_vandermonde n x w horth
  calc grid_points_to_spectral_matrix .Gauss n x w
      = grid_points_to_spectral_matrix .Gauss n x w *
          (spectral_to_grid_points_matrix n x *
            invert (spectral_to_grid_points_matrix n x)) := by
        rw [mul_invert _ hdet, mul_one]
    _ = (grid_points_to_spectral_matrix .Gauss n x w *
          spectral_to_grid_points_matrix n x) *
            invert (spectral_to_grid_points_matrix n x) := by
        rw [mul_assoc]
    _ = invert (spectral_to_grid_points_matrix n x) := by rw [hA, one_mul]

/-- Witness for C2 at the one-point Gauss rule (node 0, weight 2). -/
theorem gauss_analytic_inverse_matches_generic_witness :
    discrete_orthogonality 1 ![0] ![2] ∧
      (spectral_to_grid_points_matrix 1 ![0]).det ≠ 0 ∧
      ((∀ i j, grid_points_to_spectral_matrix .Gauss 1 ![0] ![2] i j =
          spectral_to_grid_points_matrix 1 ![0] j i * (![2] : Fin 1 → ℚ) j /
            compute_basis_function_normalization_square (i : ℕ)) ∧
        grid_points_to_spectral_matrix .Gauss 1 ![0] ![2] =
          invert (spectral_to_grid_points_matrix 1 ![0])) := by
  have h1 : discrete_orthogonality 1 ![0] ![2] := by
    intro i k
    fin_cases i <;> fin_cases k <;>
      simp [compute_basis_function_value,
        compute_basis_function_normalization_square]
  have h2 : (spectral_to_grid_points_matrix 1 ![0]).det ≠ 0 := by
    rw [Matrix.det_fin_one]
    simp [spectral_to_grid_points_matrix, compute_basis_function_value]
  exact ⟨h1, h2, gauss_analytic_inverse_matches_generic 1 ![0] ![2] h1 h2⟩

/-! ## Loop invariants of the barycentric-weights generator -/

/-- After `t ≤ j` iterations of the inner loop at column j, entry i has been
multiplied by `(x_i - x_j)` for i < t, entry j by `∏_{k < t} (x_j - x_k)`,
and every other entry is unchanged. -/
theorem baryInnerLoop_eq (n : ℕ) (x : Fin n → ℚ) (j : Fin n) (t : ℕ)
    (ht : t ≤ (j : ℕ)) (w₀ : Fin n → ℚ) (i : Fin n) :
    baryInnerLoop n x j t w₀ i =
      if (i : ℕ) < t then w₀ i * (x i - x j)
      else if i = j then
        w₀ i * ∏ k ∈ Finset.univ.filter (fun k : Fin n => (k : ℕ) < t),
          (x j - x k)
      else w₀ i := by
  induction t with
  | zero =>
      simp [baryInnerLoop]
  | succ t ih =>
      have htn : t < n := lt_of_le_of_lt (Nat.le_of_succ_le ht) j.isLt
      have ht' : t ≤ (j : ℕ) := Nat.le_of_succ_le ht
      have hkj : (⟨t, htn⟩ : Fin n) ≠ j := by
        intro hEq
        have : t = (j : ℕ) := congrArg Fin.val hEq
        omega
      have hfilter :
          Finset.univ.filter (fun k : Fin n => (k : ℕ) < t + 1) =
            insert (⟨t, htn⟩ : Fin n)
              (Finset.univ.filter (fun k : Fin n => (k : ℕ) < t)) := by
        ext k
        simp only [Finset.mem_filter, Finset.mem_univ, true_and,
          Finset.mem_insert, Fin.ext_iff]
        omega
      have hnotmem : (⟨t, htn⟩ : Fin n) ∉
          Finset.univ.filter (fun k : Fin n => (k : ℕ) < t) := by
        simp
      simp only [baryInnerLoop, dif_pos htn]
      unfold baryInnerStep
      by_cases hik : i = (⟨t, htn⟩ : Fin n)
      · subst hik
        simp only [if_pos rfl, ih ht']
        have h1 : ¬ ((t : ℕ) < t) := lt_irrefl t
        simp [h1, hkj]
      · rw [if_neg hik]
        by_cases hij : i = j
        · subst hij
          rw [if_pos rfl, ih ht']
          have h1 : ¬ ((i : ℕ) < t) := by omega
          have h2 : ¬ ((i : ℕ) < t + 1) := by omega
          rw [if_neg h1, if_pos rfl, if_neg h2, if_pos rfl, hfilter,
            Finset.prod_insert hnotmem]
          ring
        · rw [if_neg hij, ih ht']
          have hvt : ((i : ℕ) < t + 1) ↔ ((i : ℕ) < t) := by
            constructor
            · intro hlt
              rcases Nat.lt_succ_iff_lt_or_eq.mp hlt with h | h
              · exact h
              · exact absurd (Fin.ext h) hik
            · exact fun hlt => Nat.lt_succ_of_lt hlt
          by_cases hvi : (i : ℕ) < t
          · simp [hvi, hvt.mpr hvi]
          · rw [if_neg hvi, if_neg hij,
              if_neg (fun hlt => hvi (hvt.mp hlt)), if_neg hij]

/-- After the outer loop has processed columns 1..t (t < n), entry i ≤ t
holds `w₀ i` times the product of the pairwise differences `(x_i - x_k)`
over all k ≤ t with k ≠ i; entries beyond t are unchanged. -/
theorem baryOuterLoop_eq (n : ℕ) (x : Fin n → ℚ) (t : ℕ) (ht : t < n)
    (w₀ : Fin n → ℚ) (i : Fin n) :
    baryOuterLoop n x t w₀ i =
      if (i : ℕ) ≤ t then
        w₀ i * ∏ k ∈ Finset.univ.filter
          (fun k : Fin n => k ≠ i ∧ (k : ℕ) ≤ t), (x i - x k)
      else w₀ i := by
  induction t with
  | zero =>
      simp only [baryOuterLoop]
      by_cases h0 : (i : ℕ) ≤ 0
      · rw [if_pos h0]
        have hempty :
            Finset.univ.filter (fun k : Fin n => k ≠ i ∧ (k : ℕ) ≤ 0) = ∅ := by
          ext k
          simp only [Finset.mem_filter, Finset.mem_univ, true_and,
            Finset.not_mem_empty, iff_false, not_and]
          intro hki hk0
          exact hki (Fin.ext (by omega))
        rw [hempty, Finset.prod_empty, mul_one]
      · rw [if_neg h0]
  | succ t ih =>
      have ht' : t < n := Nat.lt_of_succ_lt ht
      simp only [baryOuterLoop, dif_pos ht]
      rw [baryInnerLoop_eq n x ⟨t + 1, ht⟩ (t + 1) (le_refl _)]
      by_cases hcase : (i : ℕ) < t + 1
      · have hle : (i : ℕ) ≤ t := by omega
        have hji : (⟨t + 1, ht⟩ : Fin n) ≠ i := by
          intro hEq
          have h2 : t + 1 = (i : ℕ) := congrArg Fin.val hEq
          omega
        rw [if_pos hcase, ih ht', if_pos hle,
          if_pos (show (i : ℕ) ≤ t + 1 by omega)]
        have hnm : (⟨t + 1, ht⟩ : Fin n) ∉ Finset.univ.filter
            (fun k : Fin n => k ≠ i ∧ (k : ℕ) ≤ t) := by
          simp only [Finset.mem_filter, Finset.mem_univ, true_and, not_and]
          intro _
          show ¬ (t + 1 ≤ t)
          omega
        have hins :
            Finset.univ.filter (fun k : Fin n => k ≠ i ∧ (k : ℕ) ≤ t + 1) =
              insert (⟨t + 1, ht⟩ : Fin n)
                (Finset.univ.filter
                  (fun k : Fin n => k ≠ i ∧ (k : ℕ) ≤ t)) := by
          ext k
          simp only [Finset.mem_filter, Finset.mem_univ, true_and,
            Finset.mem_insert]
          constructor
          · rintro ⟨hki, hk⟩
            by_cases hkt : (k : ℕ) ≤ t
            · exact Or.inr ⟨hki, hkt⟩
            · exact Or.inl (Fin.ext (show (k : ℕ) = t + 1 by omega))
          · rintro (rfl | ⟨hki, hkt⟩)
            · exact ⟨hji, show t + 1 ≤ t + 1 from le_refl _⟩
            · exact ⟨hki, by omega⟩
        rw [hins, Finset.prod_insert hnm]
        ring
      · rw [if_neg hcase]
        by_cases hij : i = (⟨t + 1, ht⟩ : Fin n)
        · rw [if_pos hij]
          have hival : (i : ℕ) = t + 1 := by rw [hij]
          rw [ih ht', if_neg (show ¬ ((i : ℕ) ≤ t) by omega),
            if_pos (show (i : ℕ) ≤ t + 1 by omega)]
          have hset : Finset.univ.filter (fun k : Fin n => (k : ℕ) < t + 1) =
              Finset.univ.filter
                (fun k : Fin n => k ≠ i ∧ (k : ℕ) ≤ t + 1) := by
            ext k
            simp only [Finset.mem_filter, Finset.mem_univ, true_and]
            constructor
            · intro hk
              refine ⟨fun hEq => ?_, by omega⟩
              have h2 : (k : ℕ) = (i : ℕ) := congrArg Fin.val hEq
              omega
            · rintro ⟨hki, hk⟩
              rcases Nat.lt_or_ge (k : ℕ) (t + 1) with h | h
              · exact h
              · exact absurd (Fin.ext (show (k : ℕ) = (i : ℕ) by omega)) hki
          rw [hset, hij]
        · have hgt : ¬ ((i : ℕ) ≤ t + 1) := by
            rcases Nat.lt_or_ge (t + 1) (i : ℕ) with h | h
            · omega
            · exact absurd (Fin.ext (show (i : ℕ) = t + 1 by omega)) hij
          rw [if_neg hij, ih ht', if_neg (show ¬ ((i : ℕ) ≤ t) by omega),
            if_neg hgt]

/-! ## C7: the barycentric-weights generator computes the reciprocal
pairwise-difference products -/

/-- C7: For any collocation nodes x_0..x_{N-1}, the barycentric-weights
generator (the incremental quadratic-time pairwise-difference product
algorithm, not specific to the basis) returns `bary[j]` equal to the
reciprocal of the product over all k ≠ j of `(x_j - x_k)`. -/
theorem barycentric_weights_eq_inv_prod (n : ℕ) (x : Fin n → ℚ)
    (j : Fin n) :
    barycentric_weights x j =
      (∏ k ∈ Finset.univ.erase j, (x j - x k))⁻¹ := by
  unfold barycentric_weights
  congr 1
  match n, x, j with
  | n + 1, x, j =>
    rw [show n + 1 - 1 = n from rfl,
      baryOuterLoop_eq (n + 1) x n (Nat.lt_succ_self n) _ j,
      if_pos (show (j : ℕ) ≤ n by omega), one_mul]
    apply Finset.prod_congr
    · ext k
      simp only [Finset.mem_filter, Finset.mem_univ, true_and,
        Finset.mem_erase, and_true]
      have : (k : ℕ) ≤ n := by omega
      tauto
    · intro k _
      rfl

/-! ## C3: structure of the differentiation matrix -/

/-- C3: For every point count and any collocation nodes, the differentiation
matrix has off-diagonal entry (i,j) equal to `bary[j] / (bary[i] * (x_i -
x_j))`, its diagonal entry equals the negative sum of the row's off-diagonal
entries, every row sums to zero exactly (the "negative row-sum" trick), and
differentiating a constant function yields zero. -/
theorem differentiation_matrix_rows (n : ℕ) (x : Fin n → ℚ) :
    (∀ i j, i ≠ j → differentiation_matrix n x i j =
        barycentric_weights x j /
          (barycentric_weights x i * (x i - x j))) ∧
    (∀ i, differentiation_matrix n x i i =
        -∑ j ∈ Finset.univ.erase i, differentiation_matrix n x i j) ∧
    (∀ i, ∑ j, differentiation_matrix n x i j = 0) ∧
    ∀ c : ℚ, Matrix.mulVec (differentiation_matrix n x) (fun _ => c) = 0 := by
  have hoff : ∀ i j, i ≠ j → differentiation_matrix n x i j =
      barycentric_weights x j /
        (barycentric_weights x i * (x i - x j)) := by
    intro i j hij
    simp [differentiation_matrix, hij]
  have hdiag : ∀ i, differentiation_matrix n x i i =
      -∑ j ∈ Finset.univ.erase i, differentiation_matrix n x i j := by
    intro i
    show (if i = i then _ else _) = _
    rw [if_pos rfl]
    congr 1
    apply Finset.sum_congr rfl
    intro j hj
    have hji : j ≠ i := (Finset.mem_erase.mp hj).1
    rw [hoff i j (fun h => hji h.symm)]
  have hrow : ∀ i, ∑ j, differentiation_matrix n x i j = 0 := by
    intro i
    rw [← Finset.add_sum_erase Finset.univ _ (Finset.mem_univ i), hdiag i,
      neg_add_cancel]
  refine ⟨hoff, hdiag, hrow, fun c => ?_⟩
  ext i
  show ∑ j, differentiation_matrix n x i j * c = 0
  rw [← Finset.sum_mul, hrow i, zero_mul]

/-! ## C4: interpolating to the collocation points themselves is the
identity -/

/-- C4: For every point count and any injective collocation nodes, the
interpolation matrix built with the source collocation points themselves as
target points equals the identity matrix. -/
theorem interpolation_matrix_at_collocation_points (n : ℕ)
    (x : Fin n → ℚ) (hx : Function.Injective x) :
    interpolation_matrix n n x x = 1 := by
  ext k j
  show (if ∃ jm : Fin n, x k = x jm then
      if x k = x j then (1 : ℚ) else 0
    else _) = _
  rw [if_pos ⟨k, rfl⟩]
  by_cases hkj : k = j
  · subst hkj
    rw [if_pos rfl, Matrix.one_apply_eq]
  · rw [if_neg (fun hEq => hkj (hx hEq)), Matrix.one_apply_ne hkj]

/-- Witness for C4 at the two nodes -1, 1. -/
theorem interpolation_matrix_at_collocation_points_witness :
    Function.Injective ![(-1 : ℚ), 1] ∧
      interpolation_matrix 2 2 ![(-1 : ℚ), 1] ![(-1 : ℚ), 1] = 1 := by
  have hx : Function.Injective ![(-1 : ℚ), 1] := by
    intro a b hab
    fin_cases a <;> fin_cases b <;> first | rfl | (exact absurd hab (by norm_num))
  exact ⟨hx, interpolation_matrix_at_collocation_points 2 _ hx⟩

/-! ## C6: row semantics of the interpolation matrix -/

/-- C6: For every row k of the interpolation matrix: if target point k
equals a source node x_{j₀} the row is the one-hot vector with 1 at column
j₀ and 0 elsewhere; otherwise entry j is `bary[j] / (target_k - x_j)`
divided by the row's own sum of those values, so whenever that sum is
nonzero the row sums to exactly 1. -/
theorem interpolation_matrix_row_semantics (n m : ℕ) (x : Fin n → ℚ)
    (t : Fin m → ℚ) (hx : Function.Injective x) :
    ∀ k : Fin m,
      (∀ j₀, t k = x j₀ →
        ∀ j, interpolation_matrix n m x t k j =
          if j = j₀ then 1 else 0) ∧
      (¬ (∃ j₀, t k = x j₀) →
        (∀ j, interpolation_matrix n m x t k j =
            (barycentric_weights x j / (t k - x j)) /
              ∑ js, barycentric_weights x js / (t k - x js)) ∧
        ((∑ js, barycentric_weights x js / (t k - x js)) ≠ 0 →
          ∑ j, interpolation_matrix n m x t k j = 1)) := by
  intro k
  constructor
  · intro j₀ hj₀ j
    show (if ∃ jm : Fin n, t k = x jm then
        if t k = x j then (1 : ℚ) else 0
      else _) = _
    rw [if_pos ⟨j₀, hj₀⟩]
    by_cases hjj : j = j₀
    · subst hjj
      rw [if_pos hj₀, if_pos rfl]
    · have : t k ≠ x j := by
        intro hEq
        exact hjj (hx (hEq.symm.trans hj₀))
      rw [if_neg this, if_neg hjj]
  · intro hno
    have hentry : ∀ j, interpolation_matrix n m x t k j =
        (barycentric_weights x j / (t k - x j)) /
          ∑ js, barycentric_weights x js / (t k - x js) := by
      intro j
      show (if ∃ jm : Fin n, t k = x jm then _ else
          (barycentric_weights x j / (t k - x j)) /
            ∑ js, barycentric_weights x js / (t k - x js)) = _
      rw [if_neg hno]
    refine ⟨hentry, fun hs => ?_⟩
    calc ∑ j, interpolation_matrix n m x t k j
        = ∑ j, (barycentric_weights x j / (t k - x j)) /
            ∑ js, barycentric_weights x js / (t k - x js) :=
          Finset.sum_congr rfl fun j _ => hentry j
      _ = (∑ j, barycentric_weights x j / (t k - x j)) /
            ∑ js, barycentric_weights x js / (t k - x js) :=
          (Finset.sum_div _ _ _).symm
      _ = 1 := div_self hs

/-- Witness for C6 at the two nodes -1, 1 with one matching target (1) and
one non-matching target (0). -/
theorem interpolation_matrix_row_semantics_witness :
    Function.Injective ![(-1 : ℚ), 1] ∧
      ∀ k : Fin 2,
        (∀ j₀, (![1, 0] : Fin 2 → ℚ) k = (![(-1 : ℚ), 1]) j₀ →
          ∀ j, interpolation_matrix 2 2 ![(-1 : ℚ), 1] ![1, 0] k j =
            if j = j₀ then 1 else 0) ∧
        (¬ (∃ j₀, (![1, 0] : Fin 2 → ℚ) k = (![(-1 : ℚ), 1]) j₀) →
          (∀ j, interpolation_matrix 2 2 ![(-1 : ℚ), 1] ![1, 0] k j =
              (barycentric_weights ![(-1 : ℚ), 1] j /
                  ((![1, 0] : Fin 2 → ℚ) k - (![(-1 : ℚ), 1]) j)) /
                ∑ js, barycentric_weights ![(-1 : ℚ), 1] js /
                  ((![1, 0] : Fin 2 → ℚ) k - (![(-1 : ℚ), 1]) js)) ∧
          ((∑ js, barycentric_weights ![(-1 : ℚ), 1] js /
              ((![1, 0] : Fin 2 → ℚ) k - (![(-1 : ℚ), 1]) js)) ≠ 0 →
            ∑ j, interpolation_matrix 2 2 ![(-1 : ℚ), 1] ![1, 0] k j = 1)) := by
  have hx : Function.Injective ![(-1 : ℚ), 1] := by
    intro a b hab
    fin_cases a <;> fin_cases b <;> first | rfl | (exact absurd hab (by norm_num))
  exact ⟨hx, interpolation_matrix_row_semantics 2 2 ![(-1 : ℚ), 1] ![1, 0] hx⟩

/-! ## Helper lemmas for the linear filter -/

theorem linear_filter_matrix_eq_submatrix_mul (q : Quadrature) (n : ℕ)
    (x w : Fin n → ℚ) :
    linear_filter_matrix q n x w =
      (spectral_to_grid_points_matrix n x).submatrix id
          (Fin.castLE (min_le_right 2 n)) *
        (grid_points_to_spectral_matrix q n x w).submatrix
          (Fin.castLE (min_le_right 2 n)) id := by
  ext i j
  rw [Matrix.mul_apply]
  rfl

theorem linear_filter_mid_eq_one (q : Quadrature) (n : ℕ) (x w : Fin n → ℚ)
    (hGS : grid_points_to_spectral_matrix q n x w *
        spectral_to_grid_points_matrix n x = 1) :
    (grid_points_to_spectral_matrix q n x w).submatrix
          (Fin.castLE (min_le_right 2 n)) id *
        (spectral_to_grid_points_matrix n x).submatrix id
          (Fin.castLE (min_le_right 2 n)) =
      (1 : Matrix (Fin (min 2 n)) (Fin (min 2 n)) ℚ) := by
  ext a b
  rw [Matrix.mul_apply]
  have h1 : ∑ j, (grid_points_to_spectral_matrix q n x w).submatrix
        (Fin.castLE (min_le_right 2 n)) id a j *
      (spectral_to_grid_points_matrix n x).submatrix id
        (Fin.castLE (min_le_right 2 n)) j b =
      (grid_points_to_spectral_matrix q n x w *
          spectral_to_grid_points_matrix n x)
        (Fin.castLE (min_le_right 2 n) a)
        (Fin.castLE (min_le_right 2 n) b) := by
    rw [Matrix.mul_apply]
    rfl
  rw [h1, hGS]
  by_cases hab : a = b
  · subst hab
    rw [Matrix.one_apply_eq, Matrix.one_apply_eq]
  · rw [Matrix.one_apply_ne hab,
      Matrix.one_apply_ne (fun hEq => hab (Fin.castLE_injective _ hEq))]

theorem linear_filter_matrix_idem_core (q : Quadrature) (n : ℕ)
    (x w : Fin n → ℚ)
    (hGS : grid_points_to_spectral_matrix q n x w *
        spectral_to_grid_points_matrix n x = 1) :
    linear_filter_matrix q n x w * linear_filter_matrix q n x w =
      linear_filter_matrix q n x w := by
  rw [linear_filter_matrix_eq_submatrix_mul, Matrix.mul_assoc,
    ← Matrix.mul_assoc ((grid_points_to_spectral_matrix q n x w).submatrix
      (Fin.castLE (min_le_right 2 n)) id),
    linear_filter_mid_eq_one q n x w hGS, Matrix.one_mul]

/-! ## C5: the linear filter is the rank-≤2 slice product and is
idempotent -/

/-- C5: For every N ≥ 2, the linear filter matrix equals the product of the
first two columns of `spectral_to_grid_points_matrix(N)` with the first two
rows of `grid_points_to_spectral_matrix(N)`, and it is idempotent, given
that the two transform matrices are mutually inverse (the C1 invariant the
projector property rests on). -/
theorem linear_filter_two_mode_projector_idempotent (q : Quadrature)
    (n : ℕ) (x w : Fin n → ℚ) (h2 : 2 ≤ n)
    (hGS : grid_points_to_spectral_matrix q n x w *
        spectral_to_grid_points_matrix n x = 1) :
    (∀ i j, linear_filter_matrix q n x w i j =
        ∑ l : Fin 2,
          spectral_to_grid_points_matrix n x i (Fin.castLE h2 l) *
            grid_points_to_spectral_matrix q n x w (Fin.castLE h2 l) j) ∧
    linear_filter_matrix q n x w * linear_filter_matrix q n x w =
      linear_filter_matrix q n x w := by
  refine ⟨fun i j => ?_, linear_filter_matrix_idem_core q n x w hGS⟩
  have hmin : min 2 n = 2 := min_eq_left h2
  show (∑ l : Fin (min 2 n), _) = _
  apply Fintype.sum_equiv (finCongr hmin)
  intro l
  rfl

/-- Witness for C5: the two-point Gauss-Lobatto rule (nodes ±1), where the
generic inversion path applies. -/
theorem linear_filter_two_mode_projector_idempotent_witness :
    (2 ≤ 2 ∧
      grid_points_to_spectral_matrix .GaussLobatto 2 ![-1, 1] ![1, 1] *
        spectral_to_grid_points_matrix 2 ![-1, 1] = 1) ∧
    ((∀ i j, linear_filter_matrix .GaussLobatto 2 ![-1, 1] ![1, 1] i j =
        ∑ l : Fin 2,
          spectral_to_grid_points_matrix 2 ![-1, 1] i
              (Fin.castLE (le_refl 2) l) *
            grid_points_to_spectral_matrix .GaussLobatto 2 ![-1, 1] ![1, 1]
              (Fin.castLE (le_refl 2) l) j) ∧
      linear_filter_matrix .GaussLobatto 2 ![-1, 1] ![1, 1] *
          linear_filter_matrix .GaussLobatto 2 ![-1, 1] ![1, 1] =
        linear_filter_matrix .GaussLobatto 2 ![-1, 1] ![1, 1]) := by
  have hdet : (spectral_to_grid_points_matrix 2 ![-1, 1]).det ≠ 0 := by
    rw [Matrix.det_fin_two]
    simp [spectral_to_grid_points_matrix, compute_basis_function_value]
  have hGS : grid_points_to_spectral_matrix .GaussLobatto 2 ![-1, 1] ![1, 1] *
      spectral_to_grid_points_matrix 2 ![-1, 1] = 1 :=
    invert_mul _ hdet
  exact ⟨⟨le_refl 2, hGS⟩,
    linear_filter_two_mode_projector_idempotent .GaussLobatto 2
      ![-1, 1] ![1, 1] (le_refl 2) hGS⟩

/-! ## C10: the linear filter at N = 1 keeps one mode and stays
idempotent -/

/-- C10: For N = 1 (allowed by the Gauss minimum), the linear filter matrix
is still well-defined: the `dgemm_` inner dimension is min(2, N) = 1, so it
projects onto the constant mode only, and the resulting 1×1 matrix is still
idempotent given the transform-inverse invariant. -/
theorem linear_filter_single_mode_idempotent (q : Quadrature)
    (x w : Fin 1 → ℚ)
    (hGS : grid_points_to_spectral_matrix q 1 x w *
        spectral_to_grid_points_matrix 1 x = 1) :
    (∀ i j, linear_filter_matrix q 1 x w i j =
        spectral_to_grid_points_matrix 1 x i 0 *
          grid_points_to_spectral_matrix q 1 x w 0 j) ∧
    linear_filter_matrix q 1 x w * linear_filter_matrix q 1 x w =
      linear_filter_matrix q 1 x w := by
  refine ⟨fun i j => ?_, linear_filter_matrix_idem_core q 1 x w hGS⟩
  show (∑ l : Fin (min 2 1), _) = _
  exact (Fin.sum_univ_one _).trans rfl

/-- Witness for C10: the one-point Gauss rule (node 0, weight 2). -/
theorem linear_filter_single_mode_idempotent_witness :
    (grid_points_to_spectral_matrix .Gauss 1 ![0] ![2] *
        spectral_to_grid_points_matrix 1 ![0] = 1) ∧
    ((∀ i j, linear_filter_matrix .Gauss 1 ![0] ![2] i j =
        spectral_to_grid_points_matrix 1 ![0] i 0 *
          grid_points_to_spectral_matrix .Gauss 1 ![0] ![2] 0 j) ∧
      linear_filter_matrix .Gauss 1 ![0] ![2] *
          linear_filter_matrix .Gauss 1 ![0] ![2] =
        linear_filter_matrix .Gauss 1 ![0] ![2]) := by
  have horth : discrete_orthogonality 1 ![0] ![2] := by
    intro i k
    fin_cases i <;> fin_cases k <;>
      simp [compute_basis_function_value,
        compute_basis_function_normalization_square]
  have hGS : grid_points_to_spectral_matrix .Gauss 1 ![0] ![2] *
      spectral_to_grid_points_matrix 1 ![0] = 1 :=
    gauss_mul_vandermonde 1 ![0] ![2] horth
  exact ⟨hGS, linear_filter_single_mode_idempotent .Gauss ![0] ![2] hGS⟩

/-! ## C8: the range check and the purity of cached values -/

/-- C8: For any quadrature (whose minimum is the (basis, quadrature)-specific
bound) and any shared maximum, requesting a point count below the minimum or
above the maximum — in particular N = 0 — fails with a RangeError before any
computation and leaves the cache state unchanged; for N inside [min, max]
the request returns the generator's value, a pure function of the key, and
preserves cache well-formedness. -/
theorem precomputed_spectral_quantity_contract {A : Type} (q : Quadrature)
    (max_points : ℕ) (gen : ℕ → A) (c : SpectralCache A) (n : ℕ)
    (hwf : cache_well_formed gen c) :
    ((n < minimum_number_of_points q ∨ max_points < n) →
        precomputed_spectral_quantity (minimum_number_of_points q)
          max_points gen c n = (.error .RangeError, c)) ∧
    precomputed_spectral_quantity (minimum_number_of_points q) max_points
        gen c 0 = (.error .RangeError, c) ∧
    ((minimum_number_of_points q ≤ n ∧ n ≤ max_points) →
        (precomputed_spectral_quantity (minimum_number_of_points q)
            max_points gen c n).1 = .ok (gen n) ∧
          cache_well_formed gen
            (precomputed_spectral_quantity (minimum_number_of_points q)
              max_points gen c n).2) := by
  have herr : ∀ k : ℕ, (k < minimum_number_of_points q ∨ max_points < k) →
      precomputed_spectral_quantity (minimum_number_of_points q)
        max_points gen c k = (.error .RangeError, c) := by
    intro k hk
    unfold precomputed_spectral_quantity
    rw [if_pos hk]
  have hmin_pos : 0 < minimum_number_of_points q := by
    cases q <;> simp [minimum_number_of_points]
  refine ⟨herr n, herr 0 (Or.inl hmin_pos), fun hin => ?_⟩
  have hno : ¬ (n < minimum_number_of_points q ∨ max_points < n) := by
    omega
  unfold precomputed_spectral_quantity
  rw [if_neg hno]
  cases hc : c.table with
  | some tbl =>
      refine ⟨?_, ?_⟩
      · show Except.ok (tbl n) = Except.ok (gen n)
        rw [hwf tbl hc n]
      · intro tbl2 h2 m
        exact hwf tbl2 (hc ▸ h2) m
  | none =>
      refine ⟨rfl, ?_⟩
      intro tbl2 h2 m
      have : (some fun mm => gen mm) = some tbl2 := h2
      cases this
      rfl

/-- Witness for C8: the identity generator on an unpopulated cache, Gauss
minimum, maximum 12, in-range request 3. -/
theorem precomputed_spectral_quantity_contract_witness :
    cache_well_formed (fun np : ℕ => np) (⟨none⟩ : SpectralCache ℕ) ∧
      (((3 < minimum_number_of_points .Gauss ∨ 12 < 3) →
          precomputed_spectral_quantity (minimum_number_of_points .Gauss)
            12 (fun np : ℕ => np) ⟨none⟩ 3 = (.error .RangeError, ⟨none⟩)) ∧
        precomputed_spectral_quantity (minimum_number_of_points .Gauss)
            12 (fun np : ℕ => np) ⟨none⟩ 0 = (.error .RangeError, ⟨none⟩) ∧
        ((minimum_number_of_points .Gauss ≤ 3 ∧ 3 ≤ 12) →
          (precomputed_spectral_quantity (minimum_number_of_points .Gauss)
              12 (fun np : ℕ => np) ⟨none⟩ 3).1 = .ok 3 ∧
            cache_well_formed (fun np : ℕ => np)
              (precomputed_spectral_quantity
                (minimum_number_of_points .Gauss)
                12 (fun np : ℕ => np) ⟨none⟩ 3).2)) := by
  have hwf : cache_well_formed (fun np : ℕ => np)
      (⟨none⟩ : SpectralCache ℕ) := by
    intro tbl h
    exact Option.noConfusion h
  exact ⟨hwf, precomputed_spectral_quantity_contract .Gauss 12
    (fun np : ℕ => np) ⟨none⟩ 3 hwf⟩

/-! ## C9: mesh dispatch agrees with the direct generators -/

/-- C9: For every mesh whose basis and quadrature tags lie in the supported
set (Legendre × Gauss, GaussLobatto), each mesh-level overload returns
exactly the result of calling the corresponding generator directly with the
mesh's quadrature variant and its extent as the point count. -/
theorem mesh_overloads_match_direct_generators
    (cpw : CollocationProvider) (mesh : Mesh) (m : ℕ) (t : Fin m → ℚ) :
    collocation_points_for_mesh cpw mesh =
        (cpw mesh.quadrature mesh.extent).1 ∧
      quadrature_weights_for_mesh cpw mesh =
        (cpw mesh.quadrature mesh.extent).2 ∧
      differentiation_matrix_for_mesh cpw mesh =
        differentiation_matrix mesh.extent
          (cpw mesh.quadrature mesh.extent).1 ∧
      spectral_to_grid_points_matrix_for_mesh cpw mesh =
        spectral_to_grid_points_matrix mesh.extent
          (cpw mesh.quadrature mesh.extent).1 ∧
      grid_points_to_spectral_matrix_for_mesh cpw mesh =
        grid_points_to_spectral_matrix mesh.quadrature mesh.extent
          (cpw mesh.quadrature mesh.extent).1
          (cpw mesh.quadrature mesh.extent).2 ∧
      linear_filter_matrix_for_mesh cpw mesh =
        linear_filter_matrix mesh.quadrature mesh.extent
          (cpw mesh.quadrature mesh.extent).1
          (cpw mesh.quadrature mesh.extent).2 ∧
      interpolation_matrix_for_mesh cpw mesh t =
        interpolation_matrix mesh.extent m
          (cpw mesh.quadrature mesh.extent).1 t := by
  obtain ⟨b, q, e⟩ := mesh
  cases b
  cases q <;> exact ⟨rfl, rfl, rfl, rfl, rfl, rfl, rfl⟩

end Spectral
